import Mathlib

/-!
A shallow embedding of the AES-GCM-SIV core (RFC 8452) from
src/aes-gcm-siv/src/lib.rs.

Bytes are modelled as natural numbers (the program's u8 values are below
256); byte strings are lists.  The two external collaborators are kept
abstract, exactly as the source consumes them:

* the AES block cipher is a function from a 16-byte block to a 16-byte
  block (the per-key instance obtained from `C::new`), and a key-indexed
  family `BlockCipherAlg` at the facade level;
* POLYVAL is a function from the list of absorbed 16-byte blocks to a
  16-byte result, keyed by the MAC subkey.

A `Cipher` value is the per-nonce session of the source: the keyed
block-encryption function, the keyed POLYVAL finalizer, and the nonce.
All loops of the source are translated with structural (fuel-based)
recursion so that every operation evaluates inside the kernel.
-/

namespace AesGcmSiv

/-- Little-endian 4-byte encoding of a 32-bit value, as u32::to_le_bytes. -/
def u32LE (n : Nat) : List Nat :=
  [n % 256, n / 256 % 256, n / 65536 % 256, n / 16777216 % 256]

/-- Little-endian 8-byte encoding of a 64-bit value, as u64::to_le_bytes. -/
def u64LE (n : Nat) : List Nat :=
  [n % 256, n / 256 % 256, n / 65536 % 256, n / 16777216 % 256,
   n / 4294967296 % 256, n / 1099511627776 % 256,
   n / 281474976710656 % 256, n / 72057594037927936 % 256]

/-- u32::from_le_bytes on the first four bytes of a list. -/
def fromLE32 (l : List Nat) : Nat :=
  l.getD 0 0 + 256 * l.getD 1 0 + 65536 * l.getD 2 0 + 16777216 * l.getD 3 0

/-- Maximum length of associated data, 1 << 36 (RFC 8452 Section 6). -/
def A_MAX : Nat := 1 <<< 36

/-- Maximum length of plaintext, 1 << 36 (RFC 8452 Section 6). -/
def P_MAX : Nat := 1 <<< 36

/-- Maximum length of ciphertext, (1 << 36) + 16 (RFC 8452 Section 6). -/
def C_MAX : Nat := (1 <<< 36) + 16

/-- Zero-pad a byte string into 16-byte blocks, with explicit fuel (one
unit per produced block suffices; callers pass the string length). -/
def padChunks : Nat → List Nat → List (List Nat)
  | 0, _ => []
  | _ + 1, [] => []
  | fuel + 1, b :: bs =>
      ((b :: bs).take 16 ++ List.replicate (16 - (b :: bs).length) 0) ::
        padChunks fuel ((b :: bs).drop 16)

/-- The blocks absorbed by polyval's update_padded: the input split into
16-byte chunks, the final partial chunk zero-padded to 16 bytes. -/
def padBlocks (bs : List Nat) : List (List Nat) := padChunks bs.length bs

/-- State of the POLYVAL hash during one session: the key is fixed at
construction and the state is the sequence of absorbed 16-byte blocks. -/
structure PV where
  blocks : List (List Nat)

/-- polyval.update_padded: absorb bytes, zero-padding to 16-byte blocks. -/
def PV.update_padded (s : PV) (bs : List Nat) : PV := ⟨s.blocks ++ padBlocks bs⟩

/-- polyval.update_block: absorb a single 16-byte block. -/
def PV.update_block (s : PV) (b : List Nat) : PV := ⟨s.blocks ++ [b]⟩

/-- A per-nonce cipher session (struct Cipher of the source): the AES
block-encryption function keyed with the derived encryption subkey, the
POLYVAL finalizer keyed with the derived MAC subkey, and the nonce copy. -/
structure Cipher where
  encBlock : List Nat → List Nat
  pvFin : List (List Nat) → List Nat
  nonce : List Nat

/-- The loop xoring the nonce into the first 12 bytes of the tag:
for (i, byte) in tag[..12].iter_mut().enumerate() byte ^= nonce[i]. -/
def xorNonceLoop (tag nonce : List Nat) : List Nat :=
  (List.range 12).foldl (fun t i => t.set i (t.getD i 0 ^^^ nonce.getD i 0)) tag

/-- tag[15] &= 0x7f. -/
def clearMsb15 (t : List Nat) : List Nat := t.set 15 (t.getD 15 0 &&& 127)

/-- counter_block[15] |= 0x80. -/
def setMsb15 (t : List Nat) : List Nat := t.set 15 (t.getD 15 0 ||| 128)

/-- Cipher::compute_tag: POLYVAL over the zero-padded associated data, the
zero-padded message buffer and a length block, then nonce XOR, top-bit
clearing and one AES block encryption under the encryption subkey. -/
def Cipher.compute_tag (c : Cipher) (buffer associated_data : List Nat) : List Nat :=
  let pv : PV := ⟨[]⟩
  let pv := pv.update_padded associated_data
  let pv := pv.update_padded buffer
  let block := u64LE (associated_data.length * 8) ++ u64LE (buffer.length * 8)
  let pv := pv.update_block block
  let tag := c.pvFin pv.blocks
  let tag := xorNonceLoop tag c.nonce
  let tag := clearMsb15 tag
  c.encBlock tag

/-- The chunk loop of Cipher::ctr32le, with explicit fuel (one unit per
chunk suffices; callers pass the buffer length).  Each step encrypts the
current counter block, increments its first 4 bytes as a little-endian
32-bit integer with wraparound, and XORs the keystream into the chunk. -/
def ctrGoF (E : List Nat → List Nat) : Nat → List Nat → List Nat → List Nat
  | 0, _, _ => []
  | _ + 1, _, [] => []
  | fuel + 1, counter_block, b :: bs =>
      let keystream_block := E counter_block
      let counter := (fromLE32 (counter_block.take 4) + 1) % 4294967296
      let cb := u32LE counter ++ counter_block.drop 4
      List.zipWith Nat.xor ((b :: bs).take 16) keystream_block ++
        ctrGoF E fuel cb ((b :: bs).drop 16)

/-- Cipher::ctr32le: set the top bit of byte 15 of the counter block, then
run CTR mode with a 32-bit little-endian counter over the buffer. -/
def Cipher.ctr32le (c : Cipher) (counter_block buffer : List Nat) : List Nat :=
  ctrGoF c.encBlock buffer.length (setMsb15 counter_block) buffer

/-- Cipher::encrypt_in_place.  The pair returned is (result, buffer after
the call): the source mutates the caller's buffer, so the final buffer
contents are part of the observable behaviour. -/
def Cipher.encrypt_in_place (c : Cipher) (buffer associated_data : List Nat) :
    Option (List Nat) × List Nat :=
  if buffer.length > P_MAX ∨ associated_data.length > A_MAX then (none, buffer)
  else
    let tag := c.compute_tag buffer associated_data
    (some tag, c.ctr32le tag buffer)

/-- Cipher::encrypt: copy the message, encrypt in place, append the tag. -/
def Cipher.encrypt (c : Cipher) (msg aad : List Nat) : Option (List Nat) :=
  match c.encrypt_in_place msg aad with
  | (some tag, buffer) => some (buffer ++ tag)
  | (none, _) => none

/-- Cipher::decrypt_in_place.  The pair returned is (success flag, buffer
after the call): on a failed tag check the source re-applies ctr32le to
the buffer before returning the error. -/
def Cipher.decrypt_in_place (c : Cipher) (buffer associated_data tag : List Nat) :
    Bool × List Nat :=
  if buffer.length > C_MAX ∨ associated_data.length > A_MAX then (false, buffer)
  else
    let pt := c.ctr32le tag buffer
    let expected_tag := c.compute_tag pt associated_data
    if expected_tag = tag then (true, pt)
    else (false, c.ctr32le tag pt)

/-- Cipher::decrypt: reject inputs shorter than the tag, split off the
trailing 16-byte tag, decrypt in place, return the plaintext on success. -/
def Cipher.decrypt (c : Cipher) (msg aad : List Nat) : Option (List Nat) :=
  if msg.length < 16 then none
  else
    let tag_start := msg.length - 16
    match c.decrypt_in_place (msg.take tag_start) aad (msg.drop tag_start) with
    | (true, pt) => some pt
    | (false, _) => none

/-- A block-cipher variant as the source consumes it: its key size in
bytes (16 for AES-128, 32 for AES-256) and the keyed block encryption. -/
structure BlockCipherAlg where
  keySize : Nat
  enc : List Nat → List Nat → List Nat

/-- The inner loop of Cipher::new filling one derived key: for each 8-byte
chunk, encrypt the block (32-bit little-endian counter followed by the
nonce) under the key-generating key and keep the low 8 bytes, then
increment the counter.  Returns the filled key and the final counter. -/
def fillKey (E : List Nat → List Nat) (nonce : List Nat) : Nat → Nat → List Nat × Nat
  | counter, 0 => ([], counter)
  | counter, n + 1 =>
      let block := u32LE counter ++ nonce
      let rest := fillKey E nonce (counter + 1) n
      ((E block).take 8 ++ rest.1, rest.2)

/-- Cipher::new: derive the 16-byte MAC subkey (two 8-byte chunks) and the
encryption subkey (keySize bytes, keySize / 8 chunks) from the
key-generating key in counter mode, the counter running across both
loops, then build the session from the derived keys and the nonce. -/
def Cipher.new (B : BlockCipherAlg) (pv : List Nat → List (List Nat) → List Nat)
    (key nonce : List Nat) : Cipher :=
  let kgk := B.enc key
  let mac := fillKey kgk nonce 0 (16 / 8)
  let enc := fillKey kgk nonce mac.2 (B.keySize / 8)
  { encBlock := B.enc enc.1, pvFin := pv mac.1, nonce := nonce }

/-- AesGcmSiv::encrypt: build the per-nonce session and encrypt. -/
def aeadEncrypt (B : BlockCipherAlg) (pv : List Nat → List (List Nat) → List Nat)
    (key nonce msg aad : List Nat) : Option (List Nat) :=
  (Cipher.new B pv key nonce).encrypt msg aad

/-- AesGcmSiv::decrypt: build the per-nonce session and decrypt. -/
def aeadDecrypt (B : BlockCipherAlg) (pv : List Nat → List (List Nat) → List Nat)
    (key nonce msg aad : List Nat) : Option (List Nat) :=
  (Cipher.new B pv key nonce).decrypt msg aad

/-- One derived-key chunk as the specification describes it: the low 8
bytes of AES under the key-generating key applied to the block made of
the 32-bit little-endian counter followed by the nonce. -/
def derivedChunk (B : BlockCipherAlg) (key nonce : List Nat) (ctr : Nat) : List Nat :=
  (B.enc key (u32LE ctr ++ nonce)).take 8

/-- The tag as the specification describes it: POLYVAL over the padded
associated data, then the padded message, then one length block; XOR of
the nonce into bytes 0..12; clear the top bit of byte 15; one AES block
encryption under the encryption subkey. -/
def tagSpec (c : Cipher) (buffer associated_data : List Nat) : List Nat :=
  let s := c.pvFin (padBlocks associated_data ++ padBlocks buffer ++
    [u64LE (associated_data.length * 8) ++ u64LE (buffer.length * 8)])
  c.encBlock (clearMsb15 (List.zipWith Nat.xor (s.take 12) c.nonce ++ s.drop 12))

/-- The CTR32LE keystream loop as the specification describes it: the
counter travels as a 32-bit integer incremented modulo 2^32, laid out
little-endian in the first four bytes of every counter block, while the
remaining twelve bytes stay fixed for the whole pass. -/
def ctrSpecF (E : List Nat → List Nat) : Nat → Nat → List Nat → List Nat → List Nat
  | 0, _, _, _ => []
  | _ + 1, _, _, [] => []
  | fuel + 1, ctr, tail, b :: bs =>
      List.zipWith Nat.xor ((b :: bs).take 16) (E (u32LE ctr ++ tail)) ++
        ctrSpecF E fuel ((ctr + 1) % 4294967296) tail ((b :: bs).drop 16)

/-- CTR32LE as the specification describes it, built from ctrSpecF with
the counter and fixed tail read off the initial counter block after its
top bit is set. -/
def ctr32leSpec (c : Cipher) (counter_block buffer : List Nat) : List Nat :=
  ctrSpecF c.encBlock buffer.length (fromLE32 ((setMsb15 counter_block).take 4))
    ((setMsb15 counter_block).drop 4) buffer

/-! Basic facts about the little-endian encodings. -/

lemma length_u32LE (n : Nat) : (u32LE n).length = 4 := rfl

lemma fromLE32_cons (a b c d : Nat) (l : List Nat) :
    fromLE32 (a :: b :: c :: d :: l) = a + 256 * b + 65536 * c + 16777216 * d := rfl

lemma fromLE32_u32LE (n : Nat) : fromLE32 (u32LE n) = n % 4294967296 := by
  rw [u32LE, fromLE32_cons]
  omega

lemma u32LE_bytes (b0 b1 b2 b3 : Nat) (h0 : b0 < 256) (h1 : b1 < 256)
    (h2 : b2 < 256) (h3 : b3 < 256) :
    u32LE (b0 + 256 * b1 + 65536 * b2 + 16777216 * b3) = [b0, b1, b2, b3] := by
  have e0 : (b0 + 256 * b1 + 65536 * b2 + 16777216 * b3) % 256 = b0 := by omega
  have e1 : (b0 + 256 * b1 + 65536 * b2 + 16777216 * b3) / 256 % 256 = b1 := by omega
  have e2 : (b0 + 256 * b1 + 65536 * b2 + 16777216 * b3) / 65536 % 256 = b2 := by omega
  have e3 : (b0 + 256 * b1 + 65536 * b2 + 16777216 * b3) / 16777216 % 256 = b3 := by
    omega
  rw [u32LE, e0, e1, e2, e3]

/-! XOR on byte lists. -/

lemma zipWith_xor_cancel (l : List Nat) : ∀ ks : List Nat, l.length ≤ ks.length →
    List.zipWith Nat.xor (List.zipWith Nat.xor l ks) ks = l := by
  induction l with
  | nil => intro ks _; simp
  | cons a l ih =>
      intro ks h
      cases ks with
      | nil => simp at h
      | cons k ks =>
          simp only [List.zipWith_cons_cons, List.cons.injEq]
          exact ⟨Nat.xor_cancel_right k a, ih ks (by simpa using h)⟩

/-! Destructuring a list of known length. -/

lemma len_succ {l : List Nat} {n : Nat} (h : l.length = n + 1) :
    ∃ a t, l = a :: t ∧ t.length = n := by
  cases l with
  | nil => simp at h
  | cons a t => exact ⟨a, t, rfl, by simpa using h⟩

/-! The nonce-XOR loop of compute_tag. -/

lemma foldl_set_length (g : List Nat → Nat → Nat) (is : List Nat) :
    ∀ t : List Nat, (is.foldl (fun t i => t.set i (g t i)) t).length = t.length := by
  induction is with
  | nil => intro t; rfl
  | cons i is ih =>
      intro t
      simp only [List.foldl_cons]
      rw [ih]
      exact List.length_set t i (g t i)

lemma xorNonceLoop_length (t nc : List Nat) : (xorNonceLoop t nc).length = t.length :=
  foldl_set_length (fun t i => t.getD i 0 ^^^ nc.getD i 0) (List.range 12) t

lemma xorNonceLoop_eq {s nc : List Nat} (hs : s.length = 16) (hn : nc.length = 12) :
    xorNonceLoop s nc = List.zipWith Nat.xor (s.take 12) nc ++ s.drop 12 := by
  obtain ⟨a0, s0, rfl, hs0⟩ := len_succ hs
  obtain ⟨a1, s1, rfl, hs1⟩ := len_succ hs0
  obtain ⟨a2, s2, rfl, hs2⟩ := len_succ hs1
  obtain ⟨a3, s3, rfl, hs3⟩ := len_succ hs2
  obtain ⟨a4, s4, rfl, hs4⟩ := len_succ hs3
  obtain ⟨a5, s5, rfl, hs5⟩ := len_succ hs4
  obtain ⟨a6, s6, rfl, hs6⟩ := len_succ hs5
  obtain ⟨a7, s7, rfl, hs7⟩ := len_succ hs6
  obtain ⟨a8, s8, rfl, hs8⟩ := len_succ hs7
  obtain ⟨a9, s9, rfl, hs9⟩ := len_succ hs8
  obtain ⟨a10, s10, rfl, hs10⟩ := len_succ hs9
  obtain ⟨a11, s11, rfl, hs11⟩ := len_succ hs10
  obtain ⟨a12, s12, rfl, hs12⟩ := len_succ hs11
  obtain ⟨a13, s13, rfl, hs13⟩ := len_succ hs12
  obtain ⟨a14, s14, rfl, hs14⟩ := len_succ hs13
  obtain ⟨a15, s15, rfl, hs15⟩ := len_succ hs14
  obtain rfl := List.length_eq_zero.mp hs15
  obtain ⟨b0, t0, rfl, hn0⟩ := len_succ hn
  obtain ⟨b1, t1, rfl, hn1⟩ := len_succ hn0
  obtain ⟨b2, t2, rfl, hn2⟩ := len_succ hn1
  obtain ⟨b3, t3, rfl, hn3⟩ := len_succ hn2
  obtain ⟨b4, t4, rfl, hn4⟩ := len_succ hn3
  obtain ⟨b5, t5, rfl, hn5⟩ := len_succ hn4
  obtain ⟨b6, t6, rfl, hn6⟩ := len_succ hn5
  obtain ⟨b7, t7, rfl, hn7⟩ := len_succ hn6
  obtain ⟨b8, t8, rfl, hn8⟩ := len_succ hn7
  obtain ⟨b9, t9, rfl, hn9⟩ := len_succ hn8
  obtain ⟨b10, t10, rfl, hn10⟩ := len_succ hn9
  obtain ⟨b11, t11, rfl, hn11⟩ := len_succ hn10
  obtain rfl := List.length_eq_zero.mp hn11
  rfl

/-! compute_tag in closed form, and its length. -/

lemma compute_tag_def (c : Cipher) (b a : List Nat) :
    c.compute_tag b a =
      c.encBlock (clearMsb15 (xorNonceLoop
        (c.pvFin (padBlocks a ++ padBlocks b ++
          [u64LE (a.length * 8) ++ u64LE (b.length * 8)])) c.nonce)) := by
  simp [Cipher.compute_tag, PV.update_padded, PV.update_block]

lemma compute_tag_length (c : Cipher) (b a : List Nat)
    (hE : ∀ x, x.length = 16 → (c.encBlock x).length = 16)
    (hP : ∀ bs, (c.pvFin bs).length = 16) : (c.compute_tag b a).length = 16 := by
  rw [compute_tag_def]
  apply hE
  simp [clearMsb15, List.length_set, xorNonceLoop_length, hP]

/-! The CTR32LE chunk loop. -/

lemma ctrGoF_nil (E : List Nat → List Nat) (fuel : Nat) (cb : List Nat) :
    ctrGoF E fuel cb [] = [] := by
  cases fuel <;> rfl

lemma ctrGoF_cons (E : List Nat → List Nat) (fuel : Nat) (cb l : List Nat)
    (hl : l ≠ []) :
    ctrGoF E (fuel + 1) cb l =
      List.zipWith Nat.xor (l.take 16) (E cb) ++
        ctrGoF E fuel
          (u32LE ((fromLE32 (cb.take 4) + 1) % 4294967296) ++ cb.drop 4)
          (l.drop 16) := by
  cases l with
  | nil => exact absurd rfl hl
  | cons b bs => rfl

lemma ctrGoF_length (E : List Nat → List Nat)
    (hE : ∀ x, x.length = 16 → (E x).length = 16) :
    ∀ (fuel : Nat) (cb buf : List Nat), cb.length = 16 → buf.length ≤ fuel →
      (ctrGoF E fuel cb buf).length = buf.length := by
  intro fuel
  induction fuel with
  | zero =>
      intro cb buf _ h
      obtain rfl := List.length_eq_zero.mp (Nat.le_zero.mp h)
      rfl
  | succ fuel ih =>
      intro cb buf hcb h
      cases buf with
      | nil => rfl
      | cons b bs =>
          rw [ctrGoF_cons E fuel cb _ (by simp)]
          have hks : (E cb).length = 16 := hE cb hcb
          have hcb' :
              (u32LE ((fromLE32 (cb.take 4) + 1) % 4294967296) ++ cb.drop 4).length
                = 16 := by
            simp [u32LE, List.length_drop, hcb]
          have hdl : ((b :: bs).drop 16).length ≤ fuel := by
            simp only [List.length_drop]
            simp only [List.length_cons] at h ⊢
            omega
          have ihr := ih _ ((b :: bs).drop 16) hcb' hdl
          simp only [List.length_append, List.length_zipWith, List.length_take,
            List.length_drop, hks, ihr, List.length_cons]
          omega

lemma ctrGoF_involution (E : List Nat → List Nat)
    (hE : ∀ x, x.length = 16 → (E x).length = 16) :
    ∀ (fuel : Nat) (cb buf : List Nat), cb.length = 16 → buf.length ≤ fuel →
      ctrGoF E fuel cb (ctrGoF E fuel cb buf) = buf := by
  intro fuel
  induction fuel with
  | zero =>
      intro cb buf _ h
      obtain rfl := List.length_eq_zero.mp (Nat.le_zero.mp h)
      rfl
  | succ fuel ih =>
      intro cb buf hcb h
      cases buf with
      | nil => simp [ctrGoF_nil]
      | cons b bs =>
          have hks : (E cb).length = 16 := hE cb hcb
          have hcb' :
              (u32LE ((fromLE32 (cb.take 4) + 1) % 4294967296) ++ cb.drop 4).length
                = 16 := by
            simp [u32LE, List.length_drop, hcb]
          rw [ctrGoF_cons E fuel cb (b :: bs) (by simp)]
          have hAlen : (List.zipWith Nat.xor ((b :: bs).take 16) (E cb)).length
              = min 16 (b :: bs).length := by
            simp [List.length_zipWith, List.length_take, hks]
            omega
          by_cases h16 : 16 ≤ (b :: bs).length
          · have hA16 : (List.zipWith Nat.xor ((b :: bs).take 16) (E cb)).length = 16 := by
              rw [hAlen]; omega
            rw [ctrGoF_cons E fuel cb _ (by
              intro hemp
              rw [List.append_eq_nil] at hemp
              have := hA16
              rw [hemp.1] at this
              simp at this)]
            rw [List.take_left' hA16, List.drop_left' hA16]
            have hcanc : List.zipWith Nat.xor
                (List.zipWith Nat.xor ((b :: bs).take 16) (E cb)) (E cb)
                = (b :: bs).take 16 := by
              apply zipWith_xor_cancel
              simp [List.length_take, hks]
            have hdl : ((b :: bs).drop 16).length ≤ fuel := by
              simp only [List.length_drop, List.length_cons] at *
              omega
            rw [hcanc, ih _ ((b :: bs).drop 16) hcb' hdl, List.take_append_drop]
          · have hL : (b :: bs).length < 16 := by omega
            have hdrop : (b :: bs).drop 16 = [] :=
              List.drop_eq_nil_of_le (le_of_lt hL)
            rw [hdrop, ctrGoF_nil, List.append_nil]
            set A := List.zipWith Nat.xor ((b :: bs).take 16) (E cb) with hAdef
            have hAL : A.length = (b :: bs).length := by rw [hAlen]; omega
            have hAne : A ≠ [] := by
              intro hemp
              rw [hemp] at hAL
              simp at hAL
            rw [ctrGoF_cons E fuel cb A hAne]
            have htakeA : A.take 16 = A := List.take_of_length_le (by rw [hAL]; omega)
            have hdropA : A.drop 16 = [] := List.drop_eq_nil_of_le (by rw [hAL]; omega)
            rw [htakeA, hdropA, ctrGoF_nil, List.append_nil, hAdef]
            have hcanc : List.zipWith Nat.xor
                (List.zipWith Nat.xor ((b :: bs).take 16) (E cb)) (E cb)
                = (b :: bs).take 16 := by
              apply zipWith_xor_cancel
              simp [List.length_take, hks]
            rw [hcanc]
            exact List.take_of_length_le (le_of_lt hL)

lemma ctr32le_length (c : Cipher)
    (hE : ∀ x, x.length = 16 → (c.encBlock x).length = 16)
    (t buf : List Nat) (ht : t.length = 16) :
    (c.ctr32le t buf).length = buf.length := by
  rw [Cipher.ctr32le]
  exact ctrGoF_length c.encBlock hE buf.length (setMsb15 t) buf
    (by simp [setMsb15, List.length_set, ht]) le_rfl

lemma ctr32le_involution (c : Cipher)
    (hE : ∀ x, x.length = 16 → (c.encBlock x).length = 16)
    (t buf : List Nat) (ht : t.length = 16) :
    c.ctr32le t (c.ctr32le t buf) = buf := by
  have h1 := ctr32le_length c hE t buf ht
  show ctrGoF c.encBlock (c.ctr32le t buf).length (setMsb15 t) (c.ctr32le t buf) = buf
  rw [h1]
  exact ctrGoF_involution c.encBlock hE buf.length (setMsb15 t) buf
    (by simp [setMsb15, List.length_set, ht]) le_rfl

/-! Correspondence between the operational CTR loop and its closed form. -/

lemma ctrGoF_eq_ctrSpecF (E : List Nat → List Nat) :
    ∀ (fuel n : Nat) (tail buf : List Nat), n < 4294967296 →
      ctrGoF E fuel (u32LE n ++ tail) buf = ctrSpecF E fuel n tail buf := by
  intro fuel
  induction fuel with
  | zero => intro n tail buf _; rfl
  | succ fuel ih =>
      intro n tail buf hn
      cases buf with
      | nil => rfl
      | cons b bs =>
          rw [ctrGoF_cons E fuel _ _ (by simp)]
          have h1 : (u32LE n ++ tail).take 4 = u32LE n := List.take_left' (length_u32LE n)
          have h2 : (u32LE n ++ tail).drop 4 = tail := List.drop_left' (length_u32LE n)
          rw [h1, h2, fromLE32_u32LE, Nat.mod_eq_of_lt hn]
          rw [ih ((n + 1) % 4294967296) tail ((b :: bs).drop 16)
            (Nat.mod_lt _ (by omega))]
          rfl

/-! The allocating encrypt in closed form, and the round trip. -/

lemma encrypt_eq_some (c : Cipher) (msg aad : List Nat)
    (hm : msg.length ≤ P_MAX) (ha : aad.length ≤ A_MAX) :
    c.encrypt msg aad =
      some (c.ctr32le (c.compute_tag msg aad) msg ++ c.compute_tag msg aad) := by
  have hcond : ¬(msg.length > P_MAX ∨ aad.length > A_MAX) := by
    push_neg
    exact ⟨hm, ha⟩
  simp [Cipher.encrypt, Cipher.encrypt_in_place, hcond]

lemma roundtrip_aux (c : Cipher) (msg aad : List Nat)
    (hE : ∀ x, x.length = 16 → (c.encBlock x).length = 16)
    (hP : ∀ bs, (c.pvFin bs).length = 16)
    (hm : msg.length ≤ P_MAX) (ha : aad.length ≤ A_MAX) :
    c.decrypt (c.ctr32le (c.compute_tag msg aad) msg ++ c.compute_tag msg aad) aad
      = some msg := by
  set tag := c.compute_tag msg aad with htagdef
  have ltag : tag.length = 16 := by
    rw [htagdef]
    exact compute_tag_length c msg aad hE hP
  have lct : (c.ctr32le tag msg).length = msg.length := ctr32le_length c hE tag msg ltag
  have hlen : (c.ctr32le tag msg ++ tag).length = msg.length + 16 := by
    simp [List.length_append, lct, ltag]
  simp only [Cipher.decrypt, hlen]
  rw [if_neg (by omega : ¬ msg.length + 16 < 16)]
  have hts : msg.length + 16 - 16 = msg.length := by omega
  rw [hts, List.take_left' lct, List.drop_left' lct]
  simp only [Cipher.decrypt_in_place]
  have hPC : P_MAX ≤ C_MAX := Nat.le_add_right _ 16
  have hsz : ¬((c.ctr32le tag msg).length > C_MAX ∨ aad.length > A_MAX) := by
    push_neg
    refine ⟨?_, ha⟩
    rw [lct]
    exact le_trans hm hPC
  rw [if_neg hsz]
  rw [ctr32le_involution c hE tag msg ltag]
  rw [← htagdef]
  rw [if_pos rfl]

/-! Concrete instances used to exercise the model on closed inputs. -/

/-- A 16-byte zero block. -/
def zeroBlock : List Nat := List.replicate 16 0

/-- A session whose block cipher is the identity on blocks and whose
POLYVAL finalizer is constantly zero, with an all-zero nonce. -/
def cW : Cipher := ⟨fun b => b, fun _ => zeroBlock, List.replicate 12 0⟩

/-- A session whose block cipher and POLYVAL finalizer are constantly the
zero block, with an all-zero nonce; under it CTR32LE is the identity. -/
def zc : Cipher := ⟨fun _ => zeroBlock, fun _ => zeroBlock, List.replicate 12 0⟩

/-- A 128-bit block-cipher variant whose keyed permutation is the
identity on blocks. -/
def idAlg : BlockCipherAlg := ⟨16, fun _ b => b⟩

/-- A POLYVAL family that is constantly the zero block. -/
def pvZero : List Nat → List (List Nat) → List Nat := fun _ _ => zeroBlock

/-- An all-zero 16-byte key. -/
def keyZ : List Nat := List.replicate 16 0

/-- An all-zero 12-byte nonce. -/
def nonceZ : List Nat := List.replicate 12 0

lemma zipWith_xor_replicate_zero (l : List Nat) : ∀ n, l.length ≤ n →
    List.zipWith Nat.xor l (List.replicate n 0) = l := by
  induction l with
  | nil => intro n _; simp
  | cons a l ih =>
      intro n h
      cases n with
      | zero => simp at h
      | succ n =>
          simp only [List.replicate_succ, List.zipWith_cons_cons, List.cons.injEq]
          exact ⟨Nat.xor_zero a, ih n (by simpa using h)⟩

lemma ctrGoF_zc : ∀ (fuel : Nat) (cb buf : List Nat), buf.length ≤ fuel →
    ctrGoF (fun _ => zeroBlock) fuel cb buf = buf := by
  intro fuel
  induction fuel with
  | zero =>
      intro cb buf h
      obtain rfl := List.length_eq_zero.mp (Nat.le_zero.mp h)
      rfl
  | succ fuel ih =>
      intro cb buf h
      cases buf with
      | nil => rfl
      | cons b bs =>
          rw [ctrGoF_cons _ fuel cb _ (by simp)]
          have hz : List.zipWith Nat.xor ((b :: bs).take 16) zeroBlock
              = (b :: bs).take 16 := by
            rw [zeroBlock]
            exact zipWith_xor_replicate_zero _ 16 (by simp [List.length_take])
          rw [hz]
          have hdl : ((b :: bs).drop 16).length ≤ fuel := by
            simp only [List.length_drop, List.length_cons] at h ⊢
            omega
          rw [ih _ _ hdl, List.take_append_drop]

/-- Cipher.new unfolded: the MAC subkey is two 8-byte chunks starting at
counter 0 and the encryption subkey keySize / 8 chunks starting at the
counter where the MAC loop stopped. -/
lemma Cipher.new_def (B : BlockCipherAlg) (pv : List Nat → List (List Nat) → List Nat)
    (key nonce : List Nat) :
    Cipher.new B pv key nonce =
      { encBlock := B.enc (fillKey (B.enc key) nonce
          (fillKey (B.enc key) nonce 0 2).2 (B.keySize / 8)).1,
        pvFin := pv (fillKey (B.enc key) nonce 0 2).1,
        nonce := nonce } := rfl

/-! Claim theorems. -/

/-- C1: for every key of the variant's key size, every 12-byte nonce,
every associated data of length at most 2^36 and every plaintext of
length at most 2^36, decrypting the output of encrypt with the same key,
nonce and associated data succeeds and returns the plaintext. -/
theorem c1_roundtrip (B : BlockCipherAlg) (pv : List Nat → List (List Nat) → List Nat)
    (key nonce msg aad out : List Nat)
    (hE : ∀ k x, x.length = 16 → (B.enc k x).length = 16)
    (hP : ∀ k bs, (pv k bs).length = 16)
    (_hkey : key.length = B.keySize) (_hnonce : nonce.length = 12)
    (hm : msg.length ≤ P_MAX) (ha : aad.length ≤ A_MAX)
    (henc : aeadEncrypt B pv key nonce msg aad = some out) :
    aeadDecrypt B pv key nonce out aad = some msg := by
  have hE' : ∀ x, x.length = 16 → ((Cipher.new B pv key nonce).encBlock x).length = 16 :=
    fun x hx => hE _ x hx
  have hP' : ∀ bs, ((Cipher.new B pv key nonce).pvFin bs).length = 16 :=
    fun bs => hP _ bs
  rw [aeadEncrypt, encrypt_eq_some _ _ _ hm ha] at henc
  injection henc with hout
  subst hout
  rw [aeadDecrypt]
  exact roundtrip_aux _ msg aad hE' hP' hm ha

/-- C1 witness: the round trip evaluated at a concrete key, nonce,
associated data and plaintext. -/
theorem c1_roundtrip_witness :
    aeadDecrypt idAlg pvZero keyZ nonceZ ([1, 2, 3] ++ List.replicate 16 0) [9]
      = some [1, 2, 3] :=
  c1_roundtrip idAlg pvZero keyZ nonceZ [1, 2, 3] [9]
    ([1, 2, 3] ++ List.replicate 16 0)
    (fun _ _ hx => hx) (fun _ _ => rfl) rfl rfl
    (by decide) (by decide) (by decide)

/-- C2: when in-place decryption reaches and fails the tag comparison,
decrypt_in_place returns the error with the buffer holding exactly its
pre-call contents, the second CTR32LE pass with the supplied tag having
restored the ciphertext byte for byte. -/
theorem c2_scrub_on_failure (c : Cipher) (buffer associated_data tag : List Nat)
    (hE : ∀ x, x.length = 16 → (c.encBlock x).length = 16)
    (htag : tag.length = 16)
    (hsize : ¬(buffer.length > C_MAX ∨ associated_data.length > A_MAX))
    (hfail : c.compute_tag (c.ctr32le tag buffer) associated_data ≠ tag) :
    c.decrypt_in_place buffer associated_data tag = (false, buffer) := by
  simp only [Cipher.decrypt_in_place]
  rw [if_neg hsize, if_neg hfail, ctr32le_involution c hE tag buffer htag]

/-- C2 witness: a concrete failed decryption returning the original
buffer. -/
theorem c2_scrub_on_failure_witness :
    Cipher.decrypt_in_place cW [5, 6] [] (List.replicate 16 1) = (false, [5, 6]) :=
  c2_scrub_on_failure cW [5, 6] [] (List.replicate 16 1)
    (fun _ hx => hx) (by decide) (by decide) (by decide)

/-- C3: session construction derives the subkeys as specified: each
8-byte chunk is the low 8 bytes of the key-generating cipher applied to
the 32-bit little-endian counter followed by the nonce; the MAC subkey
consumes counters 0 and 1, the encryption subkey counters 2 and 3 for a
16-byte key and counters 2, 3, 4, 5 for a 32-byte key. -/
theorem c3_subkey_derivation (B : BlockCipherAlg)
    (pv : List Nat → List (List Nat) → List Nat) (key nonce : List Nat) :
    (B.keySize = 16 →
      Cipher.new B pv key nonce =
        { encBlock := B.enc (derivedChunk B key nonce 2 ++ derivedChunk B key nonce 3),
          pvFin := pv (derivedChunk B key nonce 0 ++ derivedChunk B key nonce 1),
          nonce := nonce }) ∧
    (B.keySize = 32 →
      Cipher.new B pv key nonce =
        { encBlock := B.enc (derivedChunk B key nonce 2 ++ derivedChunk B key nonce 3 ++
            derivedChunk B key nonce 4 ++ derivedChunk B key nonce 5),
          pvFin := pv (derivedChunk B key nonce 0 ++ derivedChunk B key nonce 1),
          nonce := nonce }) := by
  constructor
  · intro h
    rw [Cipher.new_def, h]
    have h2 : (fillKey (B.enc key) nonce (fillKey (B.enc key) nonce 0 2).2 (16 / 8)).1
        = derivedChunk B key nonce 2 ++ (derivedChunk B key nonce 3 ++ []) := rfl
    have h3 : (fillKey (B.enc key) nonce 0 2).1
        = derivedChunk B key nonce 0 ++ (derivedChunk B key nonce 1 ++ []) := rfl
    rw [h2, h3]
    simp [List.append_assoc]
  · intro h
    rw [Cipher.new_def, h]
    have h2 : (fillKey (B.enc key) nonce (fillKey (B.enc key) nonce 0 2).2 (32 / 8)).1
        = derivedChunk B key nonce 2 ++ (derivedChunk B key nonce 3 ++
            (derivedChunk B key nonce 4 ++ (derivedChunk B key nonce 5 ++ []))) := rfl
    have h3 : (fillKey (B.enc key) nonce 0 2).1
        = derivedChunk B key nonce 0 ++ (derivedChunk B key nonce 1 ++ []) := rfl
    rw [h2, h3]
    simp [List.append_assoc]

/-- C3 witness: the derivation evaluated for a concrete 16-byte-key
variant. -/
theorem c3_subkey_derivation_witness :
    Cipher.new idAlg pvZero keyZ nonceZ =
      { encBlock := idAlg.enc (derivedChunk idAlg keyZ nonceZ 2 ++
          derivedChunk idAlg keyZ nonceZ 3),
        pvFin := pvZero (derivedChunk idAlg keyZ nonceZ 0 ++
          derivedChunk idAlg keyZ nonceZ 1),
        nonce := nonceZ } :=
  (c3_subkey_derivation idAlg pvZero keyZ nonceZ).1 rfl

/-- C4: compute_tag equals the specified composition: POLYVAL over the
zero-padded associated data, the zero-padded message and the length
block of the two bit lengths as 64-bit little-endian integers, then the
nonce XORed into bytes 0..12, the top bit of byte 15 cleared, and one
AES encryption under the encryption subkey. -/
theorem c4_tag_computation (c : Cipher) (buffer associated_data : List Nat)
    (hP : ∀ bs, (c.pvFin bs).length = 16)
    (hnonce : c.nonce.length = 12) :
    c.compute_tag buffer associated_data = tagSpec c buffer associated_data := by
  rw [compute_tag_def]
  simp only [tagSpec]
  rw [xorNonceLoop_eq (hP _) hnonce]

/-- C4 witness: the tag identity evaluated on concrete inputs. -/
theorem c4_tag_computation_witness :
    Cipher.compute_tag cW [1] [2] = tagSpec cW [1] [2] :=
  c4_tag_computation cW [1] [2] (fun _ => rfl) rfl

/-- C5: ctr32le first sets the top bit of byte 15 of the counter block,
then XORs each 16-byte chunk (the last one possibly shorter) with the
encryption of the current counter block truncated to the chunk length,
incrementing only the first 4 bytes as a little-endian 32-bit integer
with wraparound while bytes 4..15 never change. -/
theorem c5_ctr32le (c : Cipher) (counter_block buffer : List Nat)
    (hcb : counter_block.length = 16)
    (hbytes : ∀ x ∈ counter_block, x < 256) :
    c.ctr32le counter_block buffer = ctr32leSpec c counter_block buffer := by
  obtain ⟨c0, r0, rfl, h0⟩ := len_succ hcb
  obtain ⟨c1, r1, rfl, h1⟩ := len_succ h0
  obtain ⟨c2, r2, rfl, h2⟩ := len_succ h1
  obtain ⟨c3, r3, rfl, h3⟩ := len_succ h2
  have b0 : c0 < 256 := hbytes _ (by simp)
  have b1 : c1 < 256 := hbytes _ (by simp)
  have b2 : c2 < 256 := hbytes _ (by simp)
  have b3 : c3 < 256 := hbytes _ (by simp)
  rw [Cipher.ctr32le, ctr32leSpec]
  have hset : setMsb15 (c0 :: c1 :: c2 :: c3 :: r3)
      = c0 :: c1 :: c2 :: c3 :: (r3.set 11 (r3.getD 11 0 ||| 128)) := rfl
  rw [hset]
  have htk : (c0 :: c1 :: c2 :: c3 :: (r3.set 11 (r3.getD 11 0 ||| 128))).take 4
      = [c0, c1, c2, c3] := rfl
  have hdp : (c0 :: c1 :: c2 :: c3 :: (r3.set 11 (r3.getD 11 0 ||| 128))).drop 4
      = r3.set 11 (r3.getD 11 0 ||| 128) := rfl
  rw [htk, hdp]
  have hui : u32LE (fromLE32 [c0, c1, c2, c3]) = [c0, c1, c2, c3] := by
    rw [fromLE32_cons]
    exact u32LE_bytes c0 c1 c2 c3 b0 b1 b2 b3
  have hlt : fromLE32 [c0, c1, c2, c3] < 4294967296 := by
    rw [fromLE32_cons]
    omega
  have hcorr := ctrGoF_eq_ctrSpecF c.encBlock buffer.length
    (fromLE32 [c0, c1, c2, c3]) (r3.set 11 (r3.getD 11 0 ||| 128)) buffer hlt
  rw [hui] at hcorr
  exact hcorr

/-- C5 witness: the CTR identity evaluated on a concrete counter block
and buffer. -/
theorem c5_ctr32le_witness :
    Cipher.ctr32le cW (List.replicate 16 0) [7]
      = ctr32leSpec cW (List.replicate 16 0) [7] :=
  c5_ctr32le cW (List.replicate 16 0) [7] (by decide) (by decide)

/-- Cipher.decrypt on an input at least 16 bytes long, unfolded past the
length check. -/
lemma decrypt_unfold_long (c : Cipher) (msg aad : List Nat)
    (h : ¬ msg.length < 16) :
    c.decrypt msg aad =
      (match c.decrypt_in_place (msg.take (msg.length - 16)) aad
          (msg.drop (msg.length - 16)) with
        | (true, pt) => some pt
        | (false, _) => none) := by
  unfold Cipher.decrypt
  rw [if_neg h]

/-- Cipher.decrypt_in_place unfolded past a passing size check. -/
lemma decrypt_in_place_unfold_sized (c : Cipher) (buffer aad tag : List Nat)
    (h : ¬(buffer.length > C_MAX ∨ aad.length > A_MAX)) :
    c.decrypt_in_place buffer aad tag =
      if c.compute_tag (c.ctr32le tag buffer) aad = tag
      then (true, c.ctr32le tag buffer)
      else (false, c.ctr32le tag (c.ctr32le tag buffer)) := by
  unfold Cipher.decrypt_in_place
  rw [if_neg h]

/-- C6 counterexample: a combined input of length 2^36 + 17, longer than
C_MAX = 2^36 + 16, on which decrypt nevertheless succeeds, because the
size check bounds the detached ciphertext (the input minus the 16-byte
tag) by C_MAX rather than the combined input. -/
theorem c6_counterexample :
    C_MAX < (List.replicate ((1 <<< 36) + 17) (0 : Nat)).length ∧
    Cipher.decrypt zc (List.replicate ((1 <<< 36) + 17) 0) []
      = some (List.replicate ((1 <<< 36) + 1) 0) := by
  constructor
  · rw [List.length_replicate]
    decide
  · have hlen : (List.replicate ((1 <<< 36) + 17) (0 : Nat)).length
        = (1 <<< 36) + 17 := List.length_replicate _ _
    have h16 : ¬ (List.replicate ((1 <<< 36) + 17) (0 : Nat)).length < 16 := by
      rw [hlen]
      decide
    rw [decrypt_unfold_long zc _ [] h16, hlen]
    have h1 : (1 <<< 36) + 17 - 16 = (1 <<< 36) + 1 := by decide
    have h2 : ((1 <<< 36) + 1) ⊓ ((1 <<< 36) + 17) = (1 <<< 36) + 1 := by decide
    have h3 : (1 <<< 36) + 17 - ((1 <<< 36) + 1) = 16 := by decide
    have htake : (List.replicate ((1 <<< 36) + 17) (0 : Nat)).take ((1 <<< 36) + 1)
        = List.replicate ((1 <<< 36) + 1) 0 := by
      rw [List.take_replicate, h2]
    have hdrop : (List.replicate ((1 <<< 36) + 17) (0 : Nat)).drop ((1 <<< 36) + 1)
        = List.replicate 16 0 := by
      rw [List.drop_replicate, h3]
    rw [h1, htake, hdrop]
    have hsz : ¬((List.replicate ((1 <<< 36) + 1) (0 : Nat)).length > C_MAX ∨
        ([] : List Nat).length > A_MAX) := by
      rw [List.length_replicate]
      decide
    rw [decrypt_in_place_unfold_sized zc _ [] _ hsz]
    have hpt : zc.ctr32le (List.replicate 16 0) (List.replicate ((1 <<< 36) + 1) 0)
        = List.replicate ((1 <<< 36) + 1) 0 := by
      rw [Cipher.ctr32le, List.length_replicate]
      exact ctrGoF_zc ((1 <<< 36) + 1) _ _ (by rw [List.length_replicate])
    rw [hpt]
    have hexp : zc.compute_tag (List.replicate ((1 <<< 36) + 1) 0) []
        = List.replicate 16 0 := rfl
    rw [hexp, if_pos rfl]

/-- C6 amended: decrypt fails whenever the combined input is longer than
2^36 + 32 bytes, that is, whenever the detached ciphertext (combined
minus the 16-byte tag) is longer than C_MAX = 2^36 + 16, or the
associated data is longer than 2^36 bytes; no plaintext is returned. -/
theorem c6_oversize_amended (c : Cipher) (msg aad : List Nat)
    (h : C_MAX + 16 < msg.length ∨ A_MAX < aad.length) :
    c.decrypt msg aad = none := by
  rcases h with h | h
  · have h16 : ¬ msg.length < 16 := by omega
    simp only [Cipher.decrypt]
    rw [if_neg h16]
    have hsz : (msg.take (msg.length - 16)).length > C_MAX ∨ aad.length > A_MAX := by
      left
      rw [List.length_take, Nat.min_eq_left (Nat.sub_le _ _)]
      omega
    simp only [Cipher.decrypt_in_place]
    rw [if_pos hsz]
  · by_cases h16 : msg.length < 16
    · simp [Cipher.decrypt, h16]
    · simp only [Cipher.decrypt]
      rw [if_neg h16]
      have hsz : (msg.take (msg.length - 16)).length > C_MAX ∨ aad.length > A_MAX :=
        Or.inr h
      simp only [Cipher.decrypt_in_place]
      rw [if_pos hsz]

/-- C6 amended witness: oversize associated data makes decrypt fail. -/
theorem c6_oversize_amended_witness :
    Cipher.decrypt zc [] (List.replicate (A_MAX + 1) 0) = none :=
  c6_oversize_amended zc [] (List.replicate (A_MAX + 1) 0)
    (Or.inr (by rw [List.length_replicate]; omega))

/-- C7: encrypt returns an error exactly when the plaintext exceeds 2^36
bytes or the associated data exceeds 2^36 bytes, and decrypt returns an
error for every combined input shorter than 16 bytes; in both cases no
transformed message is delivered. -/
theorem c7_size_checks (c : Cipher) (msg aad ct : List Nat) :
    (c.encrypt msg aad = none ↔ (msg.length > P_MAX ∨ aad.length > A_MAX)) ∧
    (ct.length < 16 → c.decrypt ct aad = none) := by
  constructor
  · by_cases h : msg.length > P_MAX ∨ aad.length > A_MAX
    · simp only [Cipher.encrypt, Cipher.encrypt_in_place]
      rw [if_pos h]
      simp [h]
    · simp only [Cipher.encrypt, Cipher.encrypt_in_place]
      rw [if_neg h]
      simp [h]
  · intro hlt
    simp [Cipher.decrypt, hlt]

/-- C7 witness: the empty input is shorter than 16 bytes and decrypt
rejects it. -/
theorem c7_size_checks_witness :
    ([] : List Nat).length < 16 ∧ Cipher.decrypt cW [] [] = none :=
  ⟨by decide, (c7_size_checks cW [] [] []).2 (by decide)⟩

/-- C8: under the size limits, encrypt returns the CTR32LE ciphertext
followed by the tag, of total length plaintext length + 16, the first
part having the plaintext's length and the tag 16 bytes. -/
theorem c8_length_expansion (c : Cipher) (msg aad : List Nat)
    (hE : ∀ x, x.length = 16 → (c.encBlock x).length = 16)
    (hP : ∀ bs, (c.pvFin bs).length = 16)
    (hm : msg.length ≤ P_MAX) (ha : aad.length ≤ A_MAX) :
    c.encrypt msg aad
      = some (c.ctr32le (c.compute_tag msg aad) msg ++ c.compute_tag msg aad) ∧
    (c.ctr32le (c.compute_tag msg aad) msg ++ c.compute_tag msg aad).length
      = msg.length + 16 ∧
    (c.ctr32le (c.compute_tag msg aad) msg).length = msg.length ∧
    (c.compute_tag msg aad).length = 16 := by
  have ltag := compute_tag_length c msg aad hE hP
  have lct := ctr32le_length c hE (c.compute_tag msg aad) msg ltag
  exact ⟨encrypt_eq_some c msg aad hm ha,
    by simp [List.length_append, lct, ltag], lct, ltag⟩

/-- C8 witness: the length expansion evaluated on a concrete message. -/
theorem c8_length_expansion_witness :
    Cipher.encrypt cW [1, 2, 3] []
      = some (Cipher.ctr32le cW (Cipher.compute_tag cW [1, 2, 3] []) [1, 2, 3] ++
          Cipher.compute_tag cW [1, 2, 3] []) ∧
    (Cipher.ctr32le cW (Cipher.compute_tag cW [1, 2, 3] []) [1, 2, 3] ++
        Cipher.compute_tag cW [1, 2, 3] []).length = [1, 2, 3].length + 16 ∧
    (Cipher.ctr32le cW (Cipher.compute_tag cW [1, 2, 3] []) [1, 2, 3]).length
      = [1, 2, 3].length ∧
    (Cipher.compute_tag cW [1, 2, 3] []).length = 16 :=
  c8_length_expansion cW [1, 2, 3] [] (fun _ hx => hx) (fun _ => rfl)
    (by decide) (by decide)

/-- C9: when the size checks reject an in-place call, the error is
returned with the buffer untouched: the oversize path performs no
transformation at all. -/
theorem c9_oversize_untouched (c : Cipher) (buffer aad tag : List Nat) :
    (buffer.length > P_MAX ∨ aad.length > A_MAX →
      c.encrypt_in_place buffer aad = (none, buffer)) ∧
    (buffer.length > C_MAX ∨ aad.length > A_MAX →
      c.decrypt_in_place buffer aad tag = (false, buffer)) := by
  constructor
  · intro h
    simp only [Cipher.encrypt_in_place]
    rw [if_pos h]
  · intro h
    simp only [Cipher.decrypt_in_place]
    rw [if_pos h]

/-- C9 witness: oversize associated data leaves a concrete buffer
unchanged on both in-place paths. -/
theorem c9_oversize_untouched_witness :
    Cipher.encrypt_in_place cW [1] (List.replicate (A_MAX + 1) 0) = (none, [1]) ∧
    Cipher.decrypt_in_place cW [1] (List.replicate (A_MAX + 1) 0) [] = (false, [1]) :=
  ⟨(c9_oversize_untouched cW [1] (List.replicate (A_MAX + 1) 0) []).1
      (Or.inr (by rw [List.length_replicate]; omega)),
    (c9_oversize_untouched cW [1] (List.replicate (A_MAX + 1) 0) []).2
      (Or.inr (by rw [List.length_replicate]; omega))⟩

end AesGcmSiv
